import Mathlib

/-!
Verification of the per-client sliding-window rate limiter
(`RateLimiter` / `RateLimitMiddleware` in `internal/middleware`).

Shallow embedding: timestamps and durations are `Int` (nanoseconds, as Go's
`time.Time` / `time.Duration` differences), the per-IP map
`requests map[string][]time.Time` is an association list from `String` to
`List Int`, and one execution of the middleware body for one request is the
function `RateLimitMiddleware`, returning the admission decision
(`true` = `c.Next()`, `false` = abort with `ErrorTooManyRequests`) together
with the updated map.
-/

namespace RateLimit

/-- The pruning loop of the middleware body: keep exactly the timestamps
`reqTime` with `now.Sub(reqTime) < duration`. -/
def recentOf (duration now : Int) (ts : List Int) : List Int :=
  ts.filter (fun reqTime => decide (now - reqTime < duration))

/-- The middleware body for a single client whose stored slice is `stored`:
prune, compare against `maxRequests`, and either reject (leaving the stored
slice untouched — the early `return` skips the write-back) or append `now`
and store the pruned-plus-new slice. Returns (decision, stored slice after
the call). -/
def allowClient (maxRequests duration : Int) (stored : List Int) (now : Int) :
    Bool × List Int :=
  let recent := recentOf duration now stored
  if maxRequests ≤ (recent.length : Int) then (false, stored)
  else (true, recent ++ [now])

/-- Run a sequence of calls for a single client at the given times; returns
the trace of (call time, decision) pairs and the final stored slice. -/
def runClient (maxRequests duration : Int) (stored : List Int) :
    List Int → List (Int × Bool) × List Int
  | [] => ([], stored)
  | now :: rest =>
    let step := allowClient maxRequests duration stored now
    let r := runClient maxRequests duration step.2 rest
    ((now, step.1) :: r.1, r.2)

/-- The limiter's state: the `requests map[string][]time.Time` field. -/
abbrev Requests := List (String × List Int)

/-- Map update `rl.requests[ip] = v`. -/
def setRequests : Requests → String → List Int → Requests
  | [], ip, v => [(ip, v)]
  | (k, w) :: rest, ip, v =>
    if k = ip then (ip, v) :: rest else (k, w) :: setRequests rest ip v

/-- One execution of the `RateLimitMiddleware` body: create the entry if
absent, prune, check the quota, and on admission write back the pruned slice
with `now` appended. -/
def RateLimitMiddleware (maxRequests duration : Int) (rl : Requests)
    (ip : String) (now : Int) : Bool × Requests :=
  let rl1 := if (List.lookup ip rl).isSome then rl else setRequests rl ip []
  let stored := (List.lookup ip rl1).getD []
  let recent := recentOf duration now stored
  if maxRequests ≤ (recent.length : Int) then (false, rl1)
  else (true, setRequests rl1 ip (recent ++ [now]))

/-- Run a sequence of middleware executions, each a pair (client IP, call
time); returns the trace of (call, decision) pairs and the final map. -/
def runMiddleware (maxRequests duration : Int) (rl : Requests) :
    List (String × Int) → List ((String × Int) × Bool) × Requests
  | [] => ([], rl)
  | c :: rest =>
    let step := RateLimitMiddleware maxRequests duration rl c.1 c.2
    let r := runMiddleware maxRequests duration step.2 rest
    ((c, step.1) :: r.1, r.2)

/-- Whether `s` lies in the trailing half-open interval `(T - duration, T]`. -/
def inWindow (duration T s : Int) : Bool :=
  decide (T - duration < s) && decide (s ≤ T)

/-- The call times of the admitted (`true`) entries of a trace. -/
def admittedTimes (trace : List (Int × Bool)) : List Int :=
  (trace.filter (fun p => p.2)).map (fun p => p.1)

/-- Invariant tying the stored slice to the admitted call times after the
last call, made at time `t`: every admitted time still inside the window of
`t` is retained in the stored slice (with multiplicity), all admitted times
are in the past, and no trailing interval holds more than `maxRequests`
admitted times. -/
def ClientInv (maxRequests duration : Int) (stored admits : List Int)
    (t : Int) : Prop :=
  (admits.filter (fun s => decide (t - s < duration))).Sublist stored ∧
  (∀ s ∈ admits, s ≤ t) ∧
  (∀ T : Int, (admits.countP (inWindow duration T) : Int) ≤ maxRequests)

/-- Membership in the pruned slice. -/
lemma mem_recentOf {duration now : Int} {ts : List Int} {t : Int} :
    t ∈ recentOf duration now ts ↔ t ∈ ts ∧ now - t < duration := by
  simp [recentOf, List.mem_filter]

/-- The pruned slice is a sublist of the stored slice. -/
lemma recentOf_sublist (duration now : Int) (ts : List Int) :
    (recentOf duration now ts).Sublist ts :=
  List.filter_sublist ts

/-- Case split: `allowClient` either rejects leaving the slice untouched, or admits
appending `now` to the pruned slice. -/
lemma allowClient_cases (maxRequests duration : Int) (stored : List Int)
    (now : Int) :
    (maxRequests ≤ ((recentOf duration now stored).length : Int) ∧
      allowClient maxRequests duration stored now = (false, stored)) ∨
    (((recentOf duration now stored).length : Int) < maxRequests ∧
      allowClient maxRequests duration stored now =
        (true, recentOf duration now stored ++ [now])) := by
  by_cases h : maxRequests ≤ ((recentOf duration now stored).length : Int)
  · exact Or.inl ⟨h, by simp [allowClient, h]⟩
  · exact Or.inr ⟨lt_of_not_le h, by simp [allowClient, h]⟩

/-- The stored slice never exceeds `max maxRequests 0` entries: it is only
written on admission, as the pruned slice (shorter than `maxRequests`) plus
one new entry. -/
lemma allowClient_length_bound {maxRequests duration : Int}
    {stored : List Int} {now : Int}
    (h : (stored.length : Int) ≤ max maxRequests 0) :
    (((allowClient maxRequests duration stored now).2).length : Int) ≤
      max maxRequests 0 := by
  rcases allowClient_cases maxRequests duration stored now with
    ⟨_, heq⟩ | ⟨hlt, heq⟩
  · rw [heq]; exact h
  · rw [heq]
    simp only [List.length_append, List.length_singleton]
    push_cast
    omega

/-- The length bound is preserved along any run. -/
lemma runClient_length_bound (maxRequests duration : Int)
    (times : List Int) (stored : List Int)
    (h : (stored.length : Int) ≤ max maxRequests 0) :
    (((runClient maxRequests duration stored times).2).length : Int) ≤
      max maxRequests 0 := by
  induction times generalizing stored with
  | nil => simpa [runClient] using h
  | cons now rest ih =>
    simp only [runClient]
    exact ih _ (allowClient_length_bound h)

/-- Value of `List.lookup` after a `setRequests` update. -/
lemma lookup_setRequests (rl : Requests) (ip c : String) (v : List Int) :
    List.lookup c (setRequests rl ip v) =
      if c = ip then some v else List.lookup c rl := by
  induction rl with
  | nil =>
    by_cases h : c = ip
    · simp [setRequests, List.lookup, h]
    · have hb : (c == ip) = false := beq_eq_false_iff_ne.mpr h
      simp [setRequests, List.lookup, hb, h]
  | cons kv rest ih =>
    obtain ⟨k, w⟩ := kv
    by_cases hk : k = ip
    · subst hk
      by_cases h : c = k
      · simp [setRequests, List.lookup, h]
      · have hb : (c == k) = false := beq_eq_false_iff_ne.mpr h
        simp [setRequests, List.lookup, hb, h]
    · by_cases h : c = k
      · subst h
        have hne : ¬ c = ip := hk
        have hb : (c == c) = true := beq_self_eq_true c
        simp [setRequests, List.lookup, hk, hne, hb]
      · have hb : (c == k) = false := beq_eq_false_iff_ne.mpr h
        simp [setRequests, List.lookup, hk, h, hb, ih]

/-- In a run from a saturated, fully fresh slice, every call is rejected and
the slice never changes (helper for the attrition claim). -/
lemma runClient_saturated (maxRequests duration : Int) (stored : List Int)
    (times : List Int)
    (hsat : maxRequests ≤ (stored.length : Int))
    (hfresh : ∀ t ∈ times, ∀ s ∈ stored, t - s < duration) :
    runClient maxRequests duration stored times =
      (times.map (fun t => (t, false)), stored) := by
  induction times with
  | nil => simp [runClient]
  | cons now rest ih =>
    have hall : recentOf duration now stored = stored := by
      rw [recentOf, List.filter_eq_self]
      intro s hs
      simpa using hfresh now (by simp) s hs
    have hcond : maxRequests ≤ ((recentOf duration now stored).length : Int) := by
      rw [hall]; exact hsat
    have hstep : allowClient maxRequests duration stored now = (false, stored) := by
      simp [allowClient, hcond]
    have hrest := ih (fun t ht s hs => hfresh t (by simp [ht]) s hs)
    simp [runClient, hstep, hrest]

/-- One `allowClient` step preserves `ClientInv`, re-indexed at the (no
earlier) call time `now`; an admission also records `now` among the admitted
times. -/
lemma clientInv_step (maxRequests duration : Int) (hdur : 0 < duration)
    (stored admits : List Int) (t now : Int) (ht : t ≤ now)
    (hinv : ClientInv maxRequests duration stored admits t) :
    ClientInv maxRequests duration
      (allowClient maxRequests duration stored now).2
      (if (allowClient maxRequests duration stored now).1 = true
        then admits ++ [now] else admits) now := by
  obtain ⟨hwin, hpast, hquota⟩ := hinv
  have himp : ∀ s : Int, decide (now - s < duration) = true →
      decide (t - s < duration) = true := by
    intro s hs
    simp only [decide_eq_true_eq] at hs ⊢
    omega
  have hwin_now :
      (admits.filter (fun s => decide (now - s < duration))).Sublist stored :=
    (List.monotone_filter_right admits himp).trans hwin
  have hfilter_eq :
      admits.filter (fun s => decide (now - s < duration)) =
        admits.filter (fun s =>
          decide (now - s < duration) && decide (t - s < duration)) := by
    refine (List.filter_congr ?_).symm
    intro s _
    by_cases hs : decide (now - s < duration) = true
    · rw [hs, himp s hs]
      rfl
    · rw [Bool.not_eq_true] at hs
      rw [hs]
      rfl
  have hwin_recent :
      (admits.filter (fun s => decide (now - s < duration))).Sublist
        (recentOf duration now stored) := by
    have h := hwin.filter (fun s => decide (now - s < duration))
    rw [List.filter_filter] at h
    rw [hfilter_eq]
    exact h
  rcases allowClient_cases maxRequests duration stored now with
    ⟨hge, heq⟩ | ⟨hlt, heq⟩
  · rw [heq]
    simp only [Bool.false_eq_true, if_false]
    exact ⟨hwin_now, fun s hs => le_trans (hpast s hs) ht, hquota⟩
  · rw [heq]
    simp only [if_true]
    refine ⟨?_, ?_, ?_⟩
    · rw [List.filter_append]
      have h1 : List.filter (fun s => decide (now - s < duration)) [now] =
          [now] := by
        have hnn : decide (now - now < duration) = true := by
          simp only [decide_eq_true_eq]
          omega
        rw [List.filter_cons, List.filter_nil, if_pos hnn]
      rw [h1]
      exact List.Sublist.append hwin_recent (List.Sublist.refl [now])
    · intro s hs
      rcases List.mem_append.mp hs with h | h
      · exact le_trans (hpast s h) ht
      · rw [List.mem_singleton.mp h]
    · intro T
      rw [List.countP_append]
      by_cases hw : inWindow duration T now = true
      · have hTn : T - duration < now ∧ now ≤ T := by
          simpa [inWindow, Bool.and_eq_true, decide_eq_true_eq] using hw
        have hc1 : admits.countP (inWindow duration T) ≤
            admits.countP (inWindow duration now) := by
          refine List.countP_mono_left ?_
          intro s hs hsT
          simp only [inWindow, Bool.and_eq_true, decide_eq_true_eq] at hsT ⊢
          have := hpast s hs
          omega
        have hc2 : admits.countP (inWindow duration now) =
            admits.countP (fun s => decide (now - s < duration)) := by
          refine List.countP_congr ?_
          intro s hs
          simp only [inWindow, Bool.and_eq_true, decide_eq_true_eq]
          have := hpast s hs
          omega
        have hc3 : admits.countP (fun s => decide (now - s < duration)) =
            (admits.filter (fun s => decide (now - s < duration))).length :=
          List.countP_eq_length_filter _ _
        have hc4 :
            (admits.filter (fun s => decide (now - s < duration))).length ≤
              (recentOf duration now stored).length :=
          hwin_recent.length_le
        have hc5 : List.countP (inWindow duration T) [now] = 1 := by
          simp [List.countP_cons, hw]
        omega
      · have hc5 : List.countP (inWindow duration T) [now] = 0 := by
          rw [Bool.not_eq_true] at hw
          simp [List.countP_cons, hw]
        have := hquota T
        omega

/-- Unfolding `admittedTimes` over a trace head. -/
lemma admittedTimes_cons (now : Int) (d : Bool) (tr : List (Int × Bool)) :
    admittedTimes ((now, d) :: tr) =
      (if d = true then [now] else []) ++ admittedTimes tr := by
  cases d <;> simp [admittedTimes]

/-- Along a run at nondecreasing call times, the quota bound of `ClientInv`
extends to all admitted times of the trace. -/
lemma clientInv_run (maxRequests duration : Int) (hdur : 0 < duration) :
    ∀ (times : List Int) (stored admits : List Int) (t : Int),
    List.Chain (· ≤ ·) t times →
    ClientInv maxRequests duration stored admits t →
    ∀ T : Int,
      (((admits ++ admittedTimes
          (runClient maxRequests duration stored times).1).countP
        (inWindow duration T)) : Int) ≤ maxRequests := by
  intro times
  induction times with
  | nil =>
    intro stored admits t _ hinv T
    simpa [runClient, admittedTimes] using hinv.2.2 T
  | cons now rest ih =>
    intro stored admits t hchain hinv T
    rw [List.chain_cons] at hchain
    have hstep := clientInv_step maxRequests duration hdur stored admits t now
      hchain.1 hinv
    have hrest := ih (allowClient maxRequests duration stored now).2 _ now
      hchain.2 hstep T
    simp only [runClient]
    rw [admittedTimes_cons]
    cases hd : (allowClient maxRequests duration stored now).1 with
    | false =>
      rw [hd] at hrest
      simp only [Bool.false_eq_true, if_false] at hrest ⊢
      simpa using hrest
    | true =>
      rw [hd] at hrest
      simp only [if_true] at hrest ⊢
      rw [← List.append_assoc]
      exact hrest

/-- The per-client core of the quota invariant: for a single client starting
from zero history, at nondecreasing call times, no trailing interval of
length `duration` contains more than `maxRequests` admitted call times. -/
lemma runClient_quota (maxRequests duration : Int) (h0 : 0 ≤ maxRequests)
    (hdur : 0 < duration) (times : List Int)
    (hmono : List.Chain' (· ≤ ·) times) (T : Int) :
    (((admittedTimes (runClient maxRequests duration [] times).1).countP
      (inWindow duration T)) : Int) ≤ maxRequests := by
  cases times with
  | nil =>
    simpa [runClient, admittedTimes] using h0
  | cons t0 rest =>
    have hchain : List.Chain (· ≤ ·) t0 (t0 :: rest) := by
      rw [List.chain_cons]
      exact ⟨le_refl t0, hmono⟩
    have hinv : ClientInv maxRequests duration [] [] t0 := by
      refine ⟨by simp, by simp, fun T' => by simpa using h0⟩
    simpa using clientInv_run maxRequests duration hdur (t0 :: rest) [] [] t0
      hchain hinv T

/-- The get-or-create step does not change the slice the body goes on to
read (`getD []` turns an absent entry into zero history). -/
lemma middleware_stored (rl : Requests) (ip : String) :
    (List.lookup ip (if (List.lookup ip rl).isSome then rl
      else setRequests rl ip [])).getD [] = (List.lookup ip rl).getD [] := by
  by_cases hp : (List.lookup ip rl).isSome = true
  · rw [if_pos hp]
  · have hp' : ¬ (List.lookup ip rl).isSome := hp
    rw [if_neg hp']
    rw [lookup_setRequests, if_pos rfl]
    have hn : List.lookup ip rl = none := Option.not_isSome_iff_eq_none.mp hp
    rw [hn]
    rfl

/-- The middleware decision for `ip` is the single-client decision on the
slice stored under `ip`. -/
lemma middleware_fst (maxRequests duration : Int) (rl : Requests)
    (ip : String) (now : Int) :
    (RateLimitMiddleware maxRequests duration rl ip now).1 =
      (allowClient maxRequests duration ((List.lookup ip rl).getD [])
        now).1 := by
  simp only [RateLimitMiddleware, allowClient, middleware_stored]
  by_cases hc : maxRequests ≤
      ((recentOf duration now ((List.lookup ip rl).getD [])).length : Int)
  · rw [if_pos hc, if_pos hc]
  · rw [if_neg hc, if_neg hc]

/-- The slice stored under `ip` after a middleware call is the slice the
single-client step produces. -/
lemma middleware_snd_self (maxRequests duration : Int) (rl : Requests)
    (ip : String) (now : Int) :
    (List.lookup ip
        (RateLimitMiddleware maxRequests duration rl ip now).2).getD [] =
      (allowClient maxRequests duration ((List.lookup ip rl).getD [])
        now).2 := by
  simp only [RateLimitMiddleware, allowClient, middleware_stored]
  by_cases hc : maxRequests ≤
      ((recentOf duration now ((List.lookup ip rl).getD [])).length : Int)
  · rw [if_pos hc, if_pos hc]
    exact middleware_stored rl ip
  · rw [if_neg hc, if_neg hc]
    rw [lookup_setRequests, if_pos rfl]
    rfl

/-- A middleware call for `ip` does not touch the entry of any other
client. -/
lemma middleware_other (maxRequests duration : Int) (rl : Requests)
    (ip c : String) (hne : c ≠ ip) (now : Int) :
    List.lookup c (RateLimitMiddleware maxRequests duration rl ip now).2 =
      List.lookup c rl := by
  have hset : ∀ (m : Requests) (v : List Int),
      List.lookup c (setRequests m ip v) = List.lookup c m := by
    intro m v
    rw [lookup_setRequests, if_neg hne]
  have hcreate : List.lookup c (if (List.lookup ip rl).isSome then rl
      else setRequests rl ip []) = List.lookup c rl := by
    by_cases hp : (List.lookup ip rl).isSome = true
    · rw [if_pos hp]
    · have hp' : ¬ (List.lookup ip rl).isSome := hp
      rw [if_neg hp']
      exact hset rl []
  simp only [RateLimitMiddleware]
  by_cases hc : maxRequests ≤
      ((recentOf duration now ((List.lookup ip
        (if (List.lookup ip rl).isSome then rl
          else setRequests rl ip [])).getD [])).length : Int)
  · rw [if_pos hc]
    exact hcreate
  · rw [if_neg hc]
    rw [hset, hcreate]

/-- Projection of a mixed-client middleware run onto one client `c`: the
subtrace of `c`'s calls is exactly the single-client run of `c`'s call
times from `c`'s stored slice, and so is `c`'s final slice. -/
lemma runMiddleware_project (maxRequests duration : Int) :
    ∀ (calls : List (String × Int)) (rl : Requests) (c : String),
    (((runMiddleware maxRequests duration rl calls).1.filter
        (fun p => decide (p.1.1 = c))).map (fun p => (p.1.2, p.2)) =
      (runClient maxRequests duration ((List.lookup c rl).getD [])
        ((calls.filter (fun q => decide (q.1 = c))).map
          (fun q => q.2))).1) ∧
    ((List.lookup c (runMiddleware maxRequests duration rl calls).2).getD []
      = (runClient maxRequests duration ((List.lookup c rl).getD [])
        ((calls.filter (fun q => decide (q.1 = c))).map
          (fun q => q.2))).2) := by
  intro calls
  induction calls with
  | nil =>
    intro rl c
    simp [runMiddleware, runClient]
  | cons q rest ih =>
    intro rl c
    obtain ⟨ip, tq⟩ := q
    by_cases hip : ip = c
    · subst hip
      have hd := middleware_fst maxRequests duration rl ip tq
      have hs := middleware_snd_self maxRequests duration rl ip tq
      have hih := ih (RateLimitMiddleware maxRequests duration rl ip tq).2 ip
      rw [hs] at hih
      constructor
      · simp only [runMiddleware, runClient, List.filter_cons, List.map_cons,
          decide_eq_true_eq, if_pos rfl]
        rw [hd]
        exact congrArg _ hih.1
      · simp only [runMiddleware, runClient, List.filter_cons, List.map_cons,
          decide_eq_true_eq, if_pos rfl]
        exact hih.2
    · have hne : c ≠ ip := fun h => hip h.symm
      have hoth := middleware_other maxRequests duration rl ip c hne tq
      have hih := ih (RateLimitMiddleware maxRequests duration rl ip tq).2 c
      rw [hoth] at hih
      have hipc : ¬ decide (ip = c) = true := by
        simp [hip]
      constructor
      · simp only [runMiddleware, List.filter_cons]
        rw [if_neg hipc, if_neg hipc]
        exact hih.1
      · simp only [runMiddleware, List.filter_cons]
        rw [if_neg hipc]
        exact hih.2

/-- A run containing no call for `B` leaves `B`'s entry untouched. -/
lemma runMiddleware_frame (maxRequests duration : Int) :
    ∀ (calls : List (String × Int)) (rl : Requests) (B : String),
    (∀ q ∈ calls, q.1 ≠ B) →
    List.lookup B (runMiddleware maxRequests duration rl calls).2 =
      List.lookup B rl := by
  intro calls
  induction calls with
  | nil =>
    intro rl B _
    simp [runMiddleware]
  | cons q rest ih =>
    intro rl B hcalls
    obtain ⟨ip, tq⟩ := q
    have hne : B ≠ ip := fun h => hcalls (ip, tq) (by simp) h.symm
    simp only [runMiddleware]
    rw [ih _ B (fun q hq => hcalls q (by simp [hq]))]
    exact middleware_other maxRequests duration rl ip B hne tq

/-- While admissions so far leave room within the quota, every call is
admitted: from `stored`, a run of at most `maxRequests - stored.length`
calls returns `true` throughout. -/
lemma runClient_under_quota (maxRequests duration : Int) :
    ∀ (times : List Int) (stored : List Int),
    (stored.length : Int) + times.length ≤ maxRequests →
    (runClient maxRequests duration stored times).1 =
      times.map (fun t => (t, true)) := by
  intro times
  induction times with
  | nil =>
    intro stored _
    simp [runClient]
  | cons now rest ih =>
    intro stored h
    have hrec := (recentOf_sublist duration now stored).length_le
    have hlt : ¬ maxRequests ≤
        ((recentOf duration now stored).length : Int) := by
      simp only [List.length_cons] at h
      push_cast at h
      omega
    have heq : allowClient maxRequests duration stored now =
        (true, recentOf duration now stored ++ [now]) := by
      simp [allowClient, hlt]
    have hih := ih (recentOf duration now stored ++ [now]) (by
      simp only [List.length_append, List.length_singleton,
        List.length_cons, List.length_nil] at hrec h ⊢
      push_cast at h ⊢
      omega)
    simp only [runClient, heq, List.map_cons]
    exact congrArg _ hih

/-- When every call time is within the window of every stored timestamp and
of every other call time, the number of admitted calls is exactly the
remaining quota (or all the calls, if fewer): the serialized content of the
concurrency stress property. -/
lemma runClient_count_within_window (maxRequests duration : Int) :
    ∀ (times stored : List Int),
    (∀ a ∈ times, ∀ b ∈ stored, a - b < duration) →
    (∀ a ∈ times, ∀ b ∈ times, a - b < duration) →
    (stored.length : Int) ≤ maxRequests →
    (((runClient maxRequests duration stored times).1.countP
        (fun p => p.2)) : Int) =
      min (times.length : Int) (maxRequests - stored.length) := by
  intro times
  induction times with
  | nil =>
    intro stored _ _ hb
    simp only [runClient, List.countP_nil, List.length_nil, Nat.cast_zero]
    omega
  | cons now rest ih =>
    intro stored hfr hpair hb
    have hkeep : recentOf duration now stored = stored := by
      rw [recentOf, List.filter_eq_self]
      intro s hs
      simp only [decide_eq_true_eq]
      exact hfr now (by simp) s hs
    by_cases hc : maxRequests ≤ (stored.length : Int)
    · have heq : allowClient maxRequests duration stored now =
          (false, stored) := by
        rw [allowClient]
        rw [hkeep]
        rw [if_pos hc]
      have hr := ih stored (fun a ha => hfr a (by simp [ha]))
        (fun a ha b hbm => hpair a (by simp [ha]) b (by simp [hbm])) hb
      simp [runClient, heq, List.countP_cons]
      push_cast at hr ⊢
      omega
    · have heq : allowClient maxRequests duration stored now =
          (true, stored ++ [now]) := by
        rw [allowClient]
        rw [hkeep]
        rw [if_neg hc]
      have hfr' : ∀ a ∈ rest, ∀ b ∈ stored ++ [now], a - b < duration := by
        intro a ha b hbm
        rcases List.mem_append.mp hbm with h | h
        · exact hfr a (by simp [ha]) b h
        · rw [List.mem_singleton.mp h]
          exact hpair a (by simp [ha]) now (by simp)
      have hb' : (((stored ++ [now]).length : Int)) ≤ maxRequests := by
        simp only [List.length_append, List.length_singleton]
        push_cast
        omega
      have hr := ih (stored ++ [now]) hfr'
        (fun a ha b hbm => hpair a (by simp [ha]) b (by simp [hbm])) hb'
      simp only [List.length_append, List.length_singleton] at hr
      simp [runClient, heq, List.countP_cons]
      push_cast at hr ⊢
      omega

/-- On a rejected call the early `return` leaves the map exactly as it was
after the get-or-create step. -/
lemma middleware_rejected_map (maxRequests duration : Int) (rl : Requests)
    (ip : String) (now : Int)
    (hrej : (RateLimitMiddleware maxRequests duration rl ip now).1 = false) :
    (RateLimitMiddleware maxRequests duration rl ip now).2 =
      if (List.lookup ip rl).isSome then rl else setRequests rl ip [] := by
  have hc : maxRequests ≤
      (((recentOf duration now
        ((List.lookup ip (if (List.lookup ip rl).isSome then rl
          else setRequests rl ip [])).getD [])).length : Int)) := by
    by_contra hc
    simp [RateLimitMiddleware, hc] at hrej
  simp only [RateLimitMiddleware]
  rw [if_pos hc]

end RateLimit

open RateLimit

/-- C4: window-boundary semantics are half-open `(now-window, now]`: the
pruning step keeps a timestamp `t` if and only if `now - t` is strictly less
than the window, and a timestamp exactly `window` old is evicted. -/
theorem window_boundary_half_open (duration now : Int) (ts : List Int)
    (t : Int) :
    (t ∈ recentOf duration now ts ↔ t ∈ ts ∧ now - t < duration) ∧
      (now - duration) ∉ recentOf duration now ts := by
  refine ⟨mem_recentOf, fun hmem => ?_⟩
  have := (mem_recentOf.mp hmem).2
  omega

/-- C4 witness: with window 10 at time 10, the timestamp 0 (exactly one
window old) is evicted from the slice `[0, 5]` while 5 is kept. -/
theorem window_boundary_half_open_witness :
    ((5 : Int) ∈ recentOf 10 10 [0, 5] ↔ (5 : Int) ∈ [(0 : Int), 5] ∧
      (10 : Int) - 5 < 10) ∧ ((10 : Int) - 10) ∉ recentOf 10 10 [0, 5] :=
  window_boundary_half_open 10 10 [0, 5] 5

/-- C7: concrete trace with quota 3 and window 1000ms for a previously
unseen client: calls at 0, 100, 200ms admitted, 300ms rejected, 1050ms
admitted again (the t=0 timestamp has aged out, leaving two retained
timestamps before the append). -/
theorem example_trace_three_per_second :
    runMiddleware 3 1000 []
        [("10.0.0.5", 0), ("10.0.0.5", 100), ("10.0.0.5", 200),
         ("10.0.0.5", 300), ("10.0.0.5", 1050)] =
      ([(("10.0.0.5", 0), true), (("10.0.0.5", 100), true),
        (("10.0.0.5", 200), true), (("10.0.0.5", 300), false),
        (("10.0.0.5", 1050), true)],
       [("10.0.0.5", [100, 200, 1050])]) := by
  decide

/-- C10: under a non-positive quota every call is rejected, for every map
state and every client, including a previously unseen one. -/
theorem nonpositive_quota_rejects_all (maxRequests duration : Int)
    (rl : Requests) (ip : String) (now : Int)
    (h : maxRequests ≤ 0) :
    (RateLimitMiddleware maxRequests duration rl ip now).1 = false := by
  have hc : maxRequests ≤
      (((recentOf duration now
        ((List.lookup ip (if (List.lookup ip rl).isSome then rl
          else setRequests rl ip [])).getD [])).length : Int)) := by
    have : (0 : Int) ≤ _ := Int.natCast_nonneg
      ((recentOf duration now
        ((List.lookup ip (if (List.lookup ip rl).isSome then rl
          else setRequests rl ip [])).getD [])).length)
    omega
  simp only [RateLimitMiddleware]
  rw [if_pos hc]

/-- C10 witness: a fresh client under quota 0 is rejected. -/
theorem nonpositive_quota_rejects_all_witness :
    (RateLimitMiddleware 0 1000 [] "10.0.0.5" 0).1 = false :=
  nonpositive_quota_rejects_all 0 1000 [] "10.0.0.5" 0 (by decide)

/-- C3: rejected calls do not consume quota: with `maxRequests` unexpired
timestamps retained, every further call made while they all stay inside the
window is rejected and leaves the stored slice untouched, for arbitrarily
long call sequences. -/
theorem rejected_calls_do_not_consume_quota (maxRequests duration : Int)
    (stored : List Int) (times : List Int)
    (hsat : maxRequests ≤ (stored.length : Int))
    (hfresh : ∀ t ∈ times, ∀ s ∈ stored, t - s < duration) :
    runClient maxRequests duration stored times =
      (times.map (fun t => (t, false)), stored) :=
  runClient_saturated maxRequests duration stored times hsat hfresh

/-- C3 witness: a client saturated at quota 2 stays rejected at times 2 and
3 without its slice changing. -/
theorem rejected_calls_do_not_consume_quota_witness :
    runClient 2 10 [0, 1] [2, 3] = ([(2, false), (3, false)], [0, 1]) :=
  rejected_calls_do_not_consume_quota 2 10 [0, 1] [2, 3] (by decide)
    (by decide)

/-- C2: on every rejected call reachable from an empty history, the stored
slice equals its own filtered set — no timestamp `t` with
`now - t ≥ duration` remains — and no new timestamp is appended. -/
theorem rejection_leaves_filtered_window (maxRequests duration : Int)
    (times : List Int) (now : Int) (stored : List Int)
    (hst : (runClient maxRequests duration [] times).2 = stored)
    (hrej : (allowClient maxRequests duration stored now).1 = false) :
    (allowClient maxRequests duration stored now).2 =
      recentOf duration now stored ∧
    (allowClient maxRequests duration stored now).2 = stored := by
  have hlen : (stored.length : Int) ≤ max maxRequests 0 := by
    rw [← hst]
    exact runClient_length_bound maxRequests duration times [] (by simp)
  rcases allowClient_cases maxRequests duration stored now with
    ⟨hge, heq⟩ | ⟨hlt, heq⟩
  · have hsub := recentOf_sublist duration now stored
    have hle := hsub.length_le
    have hfe : recentOf duration now stored = stored := by
      by_cases h0 : 0 ≤ maxRequests
      · have hmax : max maxRequests 0 = maxRequests := max_eq_left h0
        rw [hmax] at hlen
        exact hsub.eq_of_length (by omega)
      · have hmax : max maxRequests 0 = 0 := max_eq_right (by omega)
        rw [hmax] at hlen
        have hnil : stored = [] := List.length_eq_zero.mp (by omega)
        subst hnil
        simp [recentOf]
    exact ⟨by rw [heq, hfe], by rw [heq]⟩
  · rw [heq] at hrej
    simp at hrej

/-- C2 witness: rejecting a saturated client (quota 1) leaves its slice
equal to its filtered set. -/
theorem rejection_leaves_filtered_window_witness :
    (allowClient 1 10 [0] 5).2 = recentOf 10 5 [0] ∧
      (allowClient 1 10 [0] 5).2 = [0] :=
  rejection_leaves_filtered_window 1 10 [0] 5 [0] (by decide) (by decide)

/-- C9: a rejected call changes no stored timestamp list of any client
already present in the map (including the caller's, which is left as is);
the only possible change is the insertion of an empty list under the
caller's identifier when it was absent. -/
theorem rejected_call_map_frame (maxRequests duration : Int) (rl : Requests)
    (ip : String) (now : Int)
    (hrej : (RateLimitMiddleware maxRequests duration rl ip now).1 = false) :
    (∀ c : String, (List.lookup c rl).isSome = true →
      List.lookup c (RateLimitMiddleware maxRequests duration rl ip now).2 =
        List.lookup c rl) ∧
    ((List.lookup ip rl).isSome = true →
      (RateLimitMiddleware maxRequests duration rl ip now).2 = rl) ∧
    ((List.lookup ip rl).isSome = false →
      (RateLimitMiddleware maxRequests duration rl ip now).2 =
        setRequests rl ip []) := by
  have hmap := middleware_rejected_map maxRequests duration rl ip now hrej
  by_cases hp : (List.lookup ip rl).isSome = true
  · rw [hmap, if_pos hp]
    refine ⟨fun c _ => rfl, fun _ => rfl, fun habs => ?_⟩
    rw [hp] at habs
    cases habs
  · have hp' : ¬ (List.lookup ip rl).isSome := hp
    rw [hmap, if_neg hp']
    refine ⟨fun c hc => ?_, fun habs => absurd habs hp, fun _ => rfl⟩
    rw [lookup_setRequests, if_neg]
    intro hcip
    subst hcip
    rw [hc] at hp
    exact hp rfl

/-- C1: for every client, quota `maxRequests > 0` and window `duration > 0`,
and every middleware call sequence at nondecreasing clock readings, the
number of admitted calls for that client whose call times lie in any
trailing interval `(T - duration, T]` never exceeds `maxRequests`. -/
theorem trailing_window_admission_bound (maxRequests duration : Int)
    (hN : 0 < maxRequests) (hdur : 0 < duration)
    (calls : List (String × Int))
    (hmono : List.Chain' (· ≤ ·) (calls.map (fun q => q.2)))
    (c : String) (T : Int) :
    (((runMiddleware maxRequests duration [] calls).1.countP
        (fun p => decide (p.1.1 = c) && p.2 && inWindow duration T p.1.2))
      : Int) ≤ maxRequests := by
  have hproj := (runMiddleware_project maxRequests duration calls [] c).1
  simp only [List.lookup_nil, Option.getD_none] at hproj
  have hsubm : (((calls.filter (fun q => decide (q.1 = c))).map
      (fun q => q.2))).Sublist (calls.map (fun q => q.2)) :=
    (List.filter_sublist calls).map _
  have hmono' : List.Chain' (· ≤ ·)
      ((calls.filter (fun q => decide (q.1 = c))).map (fun q => q.2)) :=
    hmono.sublist hsubm
  have hq := runClient_quota maxRequests duration (le_of_lt hN) hdur
    ((calls.filter (fun q => decide (q.1 = c))).map (fun q => q.2)) hmono' T
  have h1 : (admittedTimes (runClient maxRequests duration []
        ((calls.filter (fun q => decide (q.1 = c))).map
          (fun q => q.2))).1).countP (inWindow duration T) =
      ((runClient maxRequests duration []
        ((calls.filter (fun q => decide (q.1 = c))).map
          (fun q => q.2))).1).countP
        (fun q => q.2 && inWindow duration T q.1) := by
    rw [admittedTimes, List.countP_map, List.countP_filter]
    refine List.countP_congr ?_
    intro x _
    simp only [Function.comp_apply, Bool.and_eq_true]
    tauto
  have h2 : ((runClient maxRequests duration []
        ((calls.filter (fun q => decide (q.1 = c))).map
          (fun q => q.2))).1).countP
        (fun q => q.2 && inWindow duration T q.1) =
      ((runMiddleware maxRequests duration [] calls).1.countP
        (fun p => decide (p.1.1 = c) && p.2 && inWindow duration T p.1.2))
      := by
    rw [← hproj, List.countP_map, List.countP_filter]
    refine List.countP_congr ?_
    intro x _
    simp only [Function.comp_apply, Bool.and_eq_true]
    tauto
  rw [← h2, ← h1]
  exact hq

/-- C1 witness: in the concrete five-call trace with quota 3 and window
1000ms, the interval `(0, 1000]` holds at most 3 admitted calls. -/
theorem trailing_window_admission_bound_witness :
    (((runMiddleware 3 1000 []
        [("10.0.0.5", 0), ("10.0.0.5", 100), ("10.0.0.5", 200),
         ("10.0.0.5", 300), ("10.0.0.5", 1050)]).1.countP
        (fun p => decide (p.1.1 = "10.0.0.5") && p.2 &&
          inWindow 1000 1000 p.1.2)) : Int) ≤ 3 :=
  trailing_window_admission_bound 3 1000 (by decide) (by decide)
    [("10.0.0.5", 0), ("10.0.0.5", 100), ("10.0.0.5", 200),
     ("10.0.0.5", 300), ("10.0.0.5", 1050)]
    (by simp [List.chain'_cons, List.chain'_singleton]) "10.0.0.5" 1000

/-- C5: client isolation: a call for `A` never modifies `B`'s stored entry,
no sequence of calls by clients other than `B` does, and `B`'s admission
decision is unchanged by such a sequence (for example one saturating `A`'s
quota). -/
theorem client_isolation (maxRequests duration : Int) (A B : String)
    (hAB : A ≠ B) (rl : Requests) (t : Int)
    (calls : List (String × Int)) (hcalls : ∀ q ∈ calls, q.1 ≠ B)
    (now : Int) :
    List.lookup B (RateLimitMiddleware maxRequests duration rl A t).2 =
      List.lookup B rl ∧
    List.lookup B (runMiddleware maxRequests duration rl calls).2 =
      List.lookup B rl ∧
    (RateLimitMiddleware maxRequests duration
        (runMiddleware maxRequests duration rl calls).2 B now).1 =
      (RateLimitMiddleware maxRequests duration rl B now).1 := by
  have hBA : B ≠ A := fun h => hAB h.symm
  have h2 := runMiddleware_frame maxRequests duration calls rl B hcalls
  refine ⟨middleware_other maxRequests duration rl A B hBA t, h2, ?_⟩
  rw [middleware_fst, middleware_fst, h2]

/-- C5 witness: two calls by client `10.0.0.1` under quota 1 do not touch
client `10.0.0.2`'s entry or decision. -/
theorem client_isolation_witness :
    List.lookup "10.0.0.2"
        (RateLimitMiddleware 1 1000 [] "10.0.0.1" 0).2 =
      List.lookup "10.0.0.2" ([] : Requests) ∧
    List.lookup "10.0.0.2"
        (runMiddleware 1 1000 [] [("10.0.0.1", 0), ("10.0.0.1", 1)]).2 =
      List.lookup "10.0.0.2" ([] : Requests) ∧
    (RateLimitMiddleware 1 1000
        (runMiddleware 1 1000 [] [("10.0.0.1", 0), ("10.0.0.1", 1)]).2
        "10.0.0.2" 2).1 =
      (RateLimitMiddleware 1 1000 ([] : Requests) "10.0.0.2" 2).1 :=
  client_isolation 1 1000 "10.0.0.1" "10.0.0.2" (by decide) [] 0
    [("10.0.0.1", 0), ("10.0.0.1", 1)] (by decide) 2

/-- C6: the window slides rather than resetting: a client admitted on
`maxRequests` consecutive calls from zero history, then rejected once, is
admitted again on any call made once the window has fully elapsed since its
earliest retained timestamp. -/
theorem window_slides_after_earliest_expires (maxRequests duration : Int)
    (ts : List Int) (hlen : (ts.length : Int) = maxRequests)
    (tRej T e : Int)
    (hrej : (allowClient maxRequests duration
        (runClient maxRequests duration [] ts).2 tRej).1 = false)
    (hmin : ((runClient maxRequests duration [] ts).2).min? = some e)
    (hT : e + duration ≤ T) :
    (runClient maxRequests duration [] ts).1 =
      ts.map (fun t => (t, true)) ∧
    (allowClient maxRequests duration
        (allowClient maxRequests duration
          (runClient maxRequests duration [] ts).2 tRej).2 T).1 = true := by
  have hall : (runClient maxRequests duration [] ts).1 =
      ts.map (fun t => (t, true)) :=
    runClient_under_quota maxRequests duration ts [] (by
      simp only [List.length_nil, Nat.cast_zero, zero_add]
      exact le_of_eq hlen)
  refine ⟨hall, ?_⟩
  have hN0 : 0 ≤ maxRequests := by
    rw [← hlen]
    exact Int.natCast_nonneg _
  have hstored_le : (((runClient maxRequests duration [] ts).2).length : Int)
      ≤ max maxRequests 0 :=
    runClient_length_bound maxRequests duration ts [] (by simp)
  rw [max_eq_left hN0] at hstored_le
  rcases allowClient_cases maxRequests duration
      (runClient maxRequests duration [] ts).2 tRej with
    ⟨hge, heq⟩ | ⟨_, heq⟩
  · rw [heq]
    have hrecle := (recentOf_sublist duration tRej
      (runClient maxRequests duration [] ts).2).length_le
    have hlenN : (((runClient maxRequests duration [] ts).2).length : Int) =
        maxRequests := by
      push_cast at hrecle
      omega
    have he_mem : e ∈ (runClient maxRequests duration [] ts).2 :=
      List.min?_mem (fun a b => min_choice a b) hmin
    have hlt2 : (((recentOf duration T
        (runClient maxRequests duration [] ts).2).length : Int)) <
        maxRequests := by
      have hsub := recentOf_sublist duration T
        (runClient maxRequests duration [] ts).2
      have hle := hsub.length_le
      have hne : (recentOf duration T
          (runClient maxRequests duration [] ts).2).length ≠
          ((runClient maxRequests duration [] ts).2).length := by
        intro hL
        have hfeq := hsub.eq_of_length hL
        have : e ∈ recentOf duration T
            (runClient maxRequests duration [] ts).2 := by
          rw [hfeq]
          exact he_mem
        have := (mem_recentOf.mp this).2
        omega
      have hlt3 : (recentOf duration T
          (runClient maxRequests duration [] ts).2).length <
          ((runClient maxRequests duration [] ts).2).length :=
        lt_of_le_of_ne hle hne
      push_cast at hlt3 ⊢
      omega
    simp [allowClient, not_le.mpr hlt2]
  · rw [heq] at hrej
    simp at hrej

/-- C6 witness: quota 2, window 10: admissions at 0 and 1, rejection at 2,
admission again at 10 (window elapsed since the earliest retained time 0). -/
theorem window_slides_after_earliest_expires_witness :
    (runClient 2 10 [] [0, 1]).1 = [0, 1].map (fun t => (t, true)) ∧
    (allowClient 2 10 (allowClient 2 10 (runClient 2 10 [] [0, 1]).2 2).2
      10).1 = true :=
  window_slides_after_earliest_expires 2 10 [0, 1] (by decide) 2 10 0
    (by decide) (by decide) (by decide)

/-- C8: with each middleware execution an atomic critical section (the body
runs holding `rl.mu`), a concurrent workload is some serial order of its
calls; for every order of 1000 calls of one client all falling within one
1-second window, under quota 100, exactly 100 calls are admitted. -/
theorem concurrent_calls_exact_admissions (times : List Int)
    (hlen : times.length = 1000)
    (hpair : ∀ a ∈ times, ∀ b ∈ times, a - b < 1000000000) :
    (runClient 100 1000000000 [] times).1.countP (fun p => p.2) = 100 := by
  have h := runClient_count_within_window 100 1000000000 times []
    (fun a _ b hb => absurd hb (List.not_mem_nil b)) hpair (by simp)
  rw [hlen] at h
  simp only [List.length_nil, Nat.cast_zero] at h
  have hmin : min ((1000 : Nat) : Int) (100 - 0) = 100 := by decide
  rw [hmin] at h
  exact_mod_cast h

/-- C8 witness: 1000 simultaneous calls (all at time 0) admit exactly
100. -/
theorem concurrent_calls_exact_admissions_witness :
    (runClient 100 1000000000 []
      (List.replicate 1000 (0 : Int))).1.countP (fun p => p.2) = 100 :=
  concurrent_calls_exact_admissions (List.replicate 1000 (0 : Int))
    (List.length_replicate 1000 (0 : Int))
    (by
      intro a ha b hb
      rw [List.eq_of_mem_replicate ha, List.eq_of_mem_replicate hb]
      decide)

/-- C9 witness: with quota 0 a present client is rejected and the map is
bit-for-bit unchanged. -/
theorem rejected_call_map_frame_witness :
    (∀ c : String, (List.lookup c [("10.0.0.5", [(0 : Int)])]).isSome = true →
      List.lookup c
          (RateLimitMiddleware 0 10 [("10.0.0.5", [(0 : Int)])]
            "10.0.0.5" 5).2 =
        List.lookup c [("10.0.0.5", [(0 : Int)])]) ∧
    ((List.lookup "10.0.0.5" [("10.0.0.5", [(0 : Int)])]).isSome = true →
      (RateLimitMiddleware 0 10 [("10.0.0.5", [(0 : Int)])]
          "10.0.0.5" 5).2 = [("10.0.0.5", [(0 : Int)])]) ∧
    ((List.lookup "10.0.0.5" [("10.0.0.5", [(0 : Int)])]).isSome = false →
      (RateLimitMiddleware 0 10 [("10.0.0.5", [(0 : Int)])]
          "10.0.0.5" 5).2 =
        setRequests [("10.0.0.5", [(0 : Int)])] "10.0.0.5" []) :=
  rejected_call_map_frame 0 10 [("10.0.0.5", [(0 : Int)])] "10.0.0.5" 5
    (by decide)
